import Mathlib

/-!
Shallow embedding of the skiplist implementation in
`src/c-cpp/17_skiplist/skiplist_tr.hpp` (template class `skiplist` with
helper namespace `skiplist_detail`), together with proofs about it.

Modelling conventions:
* `hash_type` is `std::hash<Value>::result_type`, i.e. `size_t`, a 64-bit
  unsigned integer; keys are modelled as `Nat` with the representable range
  `[hashMin, hashMax] = [0, 2^64 - 1]`.
* Values are modelled as `Nat`; the hasher `std::hash<Value>` is a parameter
  `hash : Nat → Nat`.
* The node container `std::list<node_type>` is modelled as a `List` of nodes;
  an iterator is the position (index) of a node in that sequence, and the
  `end()` iterator is the index `cont.length` (one past the last node).
  A stored forward link is such a position.
* `double` configuration values (`prob_`) are carried as rationals; the
  embedded code never computes with them.
* The random level generator `skiplist_detail::random_level` draws from a
  `std::binomial_distribution`; the embedding records its parameters as the
  constructor sets them and takes the drawn levels as explicit inputs where
  an operation consumes randomness.
-/

namespace SkiplistTR

/-- The value `std::numeric_limits<hash_type>::min()` for `hash_type = size_t`. -/
def hashMin : Nat := 0

/-- The value `std::numeric_limits<hash_type>::max()` for `hash_type = size_t`. -/
def hashMax : Nat := 2 ^ 64 - 1

/-- Node type `skiplist_detail::InternalNode<Key, Value>`: a key, a multiset of values
(modelled as the list of its elements) and the vector of forward links
(iterator positions into the node sequence). -/
structure InternalNode where
  key : Nat
  values : List Nat
  forwards : List Nat
deriving Repr, DecidableEq, Inhabited

/-- The parameters `skiplist_detail::random_level` stores: its
`std::binomial_distribution` is constructed as `dist(max_level - 1, prob)`
where the subtraction is on the unsigned `IntType = size_type`, hence wraps
modulo `2^64`. -/
structure RandomLevelParams where
  trials : Nat
  prob : ℚ
deriving Repr, DecidableEq

/-- Constructor `random_level(IntType max_level, double prob) : dist(max_level - 1, prob)`;
`max_level - 1` is unsigned arithmetic on `size_t`. -/
def mkRandomLevel (max_level : Nat) (prob : ℚ) : RandomLevelParams :=
  ⟨(max_level + 2 ^ 64 - 1) % 2 ^ 64, prob⟩

/-- The `skiplist` object: configuration `max_lv_`, `prob_`, the stored
random-level generator `rl_`, and the node sequence `cont_`. -/
structure skiplist where
  max_lv : Nat
  prob : ℚ
  rl : RandomLevelParams
  cont : List InternalNode
deriving Repr, DecidableEq

/-- The iterator `cont_.end()` as a position: one past the last node. -/
def endIdx (sl : skiplist) : Nat := sl.cont.length

/-- Member `skiplist::begin()` returns `cont_.begin()`: the position of the first
node of the sequence (the head sentinel). -/
def beginIdx (_sl : skiplist) : Nat := 0

/-- Dereference an iterator position (out-of-range positions, which valid
use never produces, give the default node). -/
def nodeAt (sl : skiplist) (i : Nat) : InternalNode := sl.cont.getD i default

/-- Member `skiplist::init_internally()`: insert a tail node with key
`numeric_limits::max()` whose `max_lv_` forwards all hold `cont_.end()`,
then prepend a head node with key `numeric_limits::min()` whose `max_lv_`
forwards all hold `std::next(cont_.begin())`, i.e. the tail.  In the final
two-node sequence the head is position 0, the tail position 1, and `end()`
is position 2. -/
def init_internally (max_lv : Nat) : List InternalNode :=
  [ ⟨hashMin, [], List.replicate max_lv 1⟩,
    ⟨hashMax, [], List.replicate max_lv 2⟩ ]

/-- Constructor `skiplist(const size_type max_lv, const double prob)`: store the
configuration, construct `rl_(max_lv_, prob_)`, then `init_internally()`.
No argument validation is performed. -/
def create (max_lv : Nat) (prob : ℚ) : skiplist :=
  ⟨max_lv, prob, mkRandomLevel max_lv prob, init_internally max_lv⟩

/-- Default constructor `skiplist()`: uses `max_lv_ = 16`,
`prob_ = 0.5`. -/
def skiplistDefault : skiplist := create 16 (1/2)

/-- Member `skiplist::size()`: `cont_.size() - 2`. -/
def size (sl : skiplist) : Nat := sl.cont.length - 2

/-- Member `skiplist::empty()`: `size() == 0`. -/
def empty (sl : skiplist) : Bool := size sl = 0

/-- The inner loop of `find_helper` at one level `focus`:
`for (forward = iter->forwards[focus];
      forward != cont_.end() and not compare()(forward->key, key);
      forward = iter->forwards[focus]) { iter = forward; }`
where `compare()(a, b)` is `a < b` on `hash_type`.  The recursion carries
explicit fuel; `find_helper` supplies fuel `cont_.length`, which suffices
whenever forward links move strictly forward (proved below). -/
def advanceAt (sl : skiplist) (key focus : Nat) : Nat → Nat → Nat
  | 0, iter => iter
  | fuel + 1, iter =>
    if (nodeAt sl iter).forwards.getD focus (endIdx sl) ≠ endIdx sl ∧
        ¬ (nodeAt sl ((nodeAt sl iter).forwards.getD focus (endIdx sl))).key < key then
      advanceAt sl key focus fuel ((nodeAt sl iter).forwards.getD focus (endIdx sl))
    else
      iter

/-- Member `skiplist::find_helper(key)` with explicit fuel for each level's inner
loop: start at `cont_.begin()` and, for `i` from `0` to `max_lv_ - 1`, run
the inner loop at level `focus = max_lv_ - 1 - i`. -/
def find_helperFuel (fuel : Nat) (sl : skiplist) (key : Nat) : Nat :=
  (List.range sl.max_lv).foldl
    (fun iter i => advanceAt sl key (sl.max_lv - 1 - i) fuel iter) (beginIdx sl)

/-- Member `skiplist::find_helper(key)`: the fuel `cont_.length` bounds the number
of iterations of each inner loop on every state whose forward links move
strictly forward. -/
def find_helper (sl : skiplist) (key : Nat) : Nat :=
  find_helperFuel sl.cont.length sl key

/-- Member `skiplist::find(target)`:
`key = hasher()(target); iter = find_helper(key);
 return (iter->key == key) ? iter : cont_.end();`. -/
def find (hash : Nat → Nat) (sl : skiplist) (target : Nat) : Nat :=
  let key := hash target
  let iter := find_helper sl key
  if (nodeAt sl iter).key = key then iter else endIdx sl

/-- Member `skiplist::find` as a state transformer: the member function is
`const`-qualified and only reads `cont_`, so the state component is the
incoming state. -/
def findOp (hash : Nat → Nat) (sl : skiplist) (target : Nat) :
    Nat × skiplist :=
  (find hash sl target, sl)

/-- The nodes visited by forward iteration from `begin()` to `end()`:
positions `beginIdx, beginIdx + 1, …, endIdx - 1` in order. -/
def iterNodes (sl : skiplist) : List InternalNode :=
  (List.range (endIdx sl - beginIdx sl)).map (fun k => nodeAt sl (beginIdx sl + k))

/-- The interior nodes of a state: every node strictly between the head
sentinel (position 0) and the tail sentinel (last position). -/
def interiorNodes (sl : skiplist) : List InternalNode :=
  ((sl.cont.drop 1).dropLast)

/-- Strictly-ascending check on a key sequence (a computable rendering of
`List.Chain' (· < ·)`; the two agree, see `ascending_iff_chain'`). -/
def ascending : List Nat → Bool
  | [] => true
  | [_] => true
  | a :: b :: t => decide (a < b) && ascending (b :: t)

lemma ascending_iff_chain' :
    ∀ l : List Nat, ascending l = true ↔ List.Chain' (· < ·) l
  | [] => by simp [ascending]
  | [a] => by simp [ascending]
  | a :: b :: t => by
    rw [ascending, Bool.and_eq_true, decide_eq_true_iff,
      ascending_iff_chain' (b :: t), List.chain'_cons]

/-- The structural invariant of the data model: at least the two sentinels
are present, the head carries the minimum representable key and the tail
the maximum, keys are strictly increasing along the sequence, every node's
forward vector has length `max_lv_`, and every forward link points strictly
later in the sequence or to the end marker. -/
def ValidState (sl : skiplist) : Prop :=
  2 ≤ sl.cont.length ∧
  (nodeAt sl 0).key = hashMin ∧
  (nodeAt sl (sl.cont.length - 1)).key = hashMax ∧
  ascending (sl.cont.map (·.key)) = true ∧
  (∀ i ∈ List.range sl.cont.length, (nodeAt sl i).forwards.length = sl.max_lv) ∧
  (∀ i ∈ List.range sl.cont.length,
    ∀ f ∈ (nodeAt sl i).forwards, i < f ∧ f ≤ sl.cont.length)

instance (sl : skiplist) : Decidable (ValidState sl) :=
  inferInstanceAs (Decidable
    (2 ≤ sl.cont.length ∧
     (nodeAt sl 0).key = hashMin ∧
     (nodeAt sl (sl.cont.length - 1)).key = hashMax ∧
     ascending (sl.cont.map (fun nd : InternalNode => nd.key)) = true ∧
     (∀ i ∈ List.range sl.cont.length,
       (nodeAt sl i).forwards.length = sl.max_lv) ∧
     (∀ i ∈ List.range sl.cont.length,
       ∀ f ∈ (nodeAt sl i).forwards, i < f ∧ f ≤ sl.cont.length)))

/-- Forward links move strictly forward: every stored forward link of every
node points to a node strictly later in the sequence or to the end marker. -/
def LinksIncrease (sl : skiplist) : Prop :=
  ∀ i ∈ List.range sl.cont.length,
    ∀ f ∈ (nodeAt sl i).forwards, i < f ∧ f ≤ sl.cont.length

instance (sl : skiplist) : Decidable (LinksIncrease sl) :=
  inferInstanceAs (Decidable
    (∀ i ∈ List.range sl.cont.length,
      ∀ f ∈ (nodeAt sl i).forwards, i < f ∧ f ≤ sl.cont.length))

/-- Modelled from the spec: the repository's `skiplist::insert` is declared
by use (the iterator-range constructor calls it) but its definition is
missing from the source file.  `locate` follows §4.2's stated contract: the
descent "terminates at the node whose key is the greatest key ≤ target_key
(or head itself if no interior node qualifies)".  On the key-sorted node
sequence this is the last position whose key is ≤ the target key (position
0, the head, when no other position qualifies). -/
def locate (sl : skiplist) (key : Nat) : Nat :=
  ((sl.cont.map (·.key)).takeWhile (fun k => decide (k ≤ key))).length - 1

/-- Modelled from the spec: §4.4's collision branch — "add `value` into
that node's `values` multiset; no structural change". -/
def addValueAt (sl : skiplist) (p : Nat) (value : Nat) : skiplist :=
  { sl with
    cont := sl.cont.set p
      (let nd := nodeAt sl p
       { nd with values := value :: nd.values }) }

/-- Set node `j`'s forward entry at level `i` to `target` (one relinking
step of §4.4: "that left node's `forwards[i]` is updated to point to the
new node"). -/
def updateForward (cont : List InternalNode) (j i target : Nat) :
    List InternalNode :=
  cont.set j
    (let nd := cont.getD j default
     { nd with forwards := nd.forwards.set i target })

/-- The nearest node to the left of splice position `q` participating in
level `i`: the last position before `q` whose level-`i` link jumps to or
past the splice point (the head, position 0, when none does). -/
def leftNeighborAt (remapped : List InternalNode) (q i : Nat) : Nat :=
  (List.range q).foldl
    (fun acc j =>
      if q + 1 ≤ (remapped.getD j default).forwards.getD i 0 then j else acc) 0

/-- Modelled from the spec: §4.4's structural branch — "create a new node
with that `key` … splice it into the ordered sequence immediately after
`predecessor` [position `q`]; for each level `i` in `[0, lvl)`, the new
node's `forwards[i]` takes over the previous `forwards[i]` value of the
nearest node to its left that participates in level `i` …, and that left
node's `forwards[i]` is updated to point to the new node", the remaining
upper entries being initialised to the structural successor (§3).  Links
are positions, so splicing at `q` first renumbers every stored link `f ≥ q`
to `f + 1` (the nodes a link denotes are unchanged). -/
def spliceNode (sl : skiplist) (key lvl q : Nat) (value : Nat) :
    List InternalNode :=
  let remapped :=
    sl.cont.map (fun nd =>
      { nd with forwards := nd.forwards.map (fun f => if q ≤ f then f + 1 else f) })
  let newNode : InternalNode :=
    ⟨key, [value],
      (List.range sl.max_lv).map (fun i =>
        if i < lvl then
          (remapped.getD (leftNeighborAt remapped q i) default).forwards.getD i
            (sl.cont.length + 1)
        else q + 1)⟩
  let relinked :=
    (List.range lvl).foldl
      (fun cs i => updateForward cs (leftNeighborAt remapped q i) i q) remapped
  relinked.take q ++ newNode :: relinked.drop q

/-- Modelled from the spec: `skiplist::insert(value)` per §4.4 — compute
`key = hash(value)`, run the descent to obtain the predecessor; on a key
collision add the value to the existing node's multiset, otherwise draw a
level count from the Level Generator (§4.1: the node participates in
`1 + draw` levels, capped at `max_lv_`) and splice a new node in directly
after the predecessor.  `draws` is the Level Generator's output stream and
the second component counts the draws consumed so far (only node creation
consumes a draw). -/
def insertR (hash draws : Nat → Nat) :
    skiplist × Nat → Nat → skiplist × Nat := fun sc value =>
  let sl := sc.1
  let key := hash value
  let p := locate sl key
  if (nodeAt sl p).key = key then
    (addValueAt sl p value, sc.2)
  else
    let lvl := min (draws sc.2 + 1) sl.max_lv
    ({ sl with cont := spliceNode sl key lvl (p + 1) value }, sc.2 + 1)

/-- The loop body of `skiplist(InputIt first, InputIt last)`:
`for (InputIt i = first; i != last; ++i) { insert(*i); }`. -/
def insertLoop (hash draws : Nat → Nat) :
    skiplist × Nat → List Nat → skiplist × Nat
  | sc, [] => sc
  | sc, v :: vs => insertLoop hash draws (insertR hash draws sc v) vs

/-- Constructor `skiplist(InputIt first, InputIt last)` (and through it the
initializer-list constructor): delegate to the default constructor, then
insert every element of the range in iteration order. -/
def fromList (hash draws : Nat → Nat) (vs : List Nat) : skiplist :=
  (insertLoop hash draws (skiplistDefault, 0) vs).1

/-- The construction contract as the spec words it, for comparison with the
code's `create`: "`max_level` must be ≥ 1; `probability` in `(0, 1)`" and
"Construction fails (precondition violation) if `max_level < 1` or
`probability` outside `(0, 1)` — … reported immediately". -/
def specCheckedCreate (max_lv : Nat) (prob : ℚ) : Option skiplist :=
  if 1 ≤ max_lv ∧ 0 < prob ∧ prob < 1 then some (create max_lv prob) else none

/-- A three-node state: head, one interior node with key 5 holding the one
value 5, tail; `max_lv_ = 1`.  It is the state reached from `create 1 ½` by
the documented `insert(5)` under the identity hasher (proved below). -/
def st5 : skiplist :=
  ⟨1, 1/2, mkRandomLevel 1 (1/2),
    [ ⟨hashMin, [], [1]⟩, ⟨5, [5], [2]⟩, ⟨hashMax, [], [3]⟩ ]⟩

/-- State `st5` is reachable: it is the state after `insert(5)` (modelled from
the spec) on `create 1 ½` with the identity hasher; the only possible
level draw with `max_lv_ = 1` is 0. -/
lemma st5_reachable :
    (insertR (fun v => v) (fun _ => 0) (create 1 (1/2), 0) 5).1 = st5 :=
  rfl

/-! ## Claim theorems -/

/-- C1 (code bug): on the freshly constructed default skiplist — a state
satisfying the structural invariant — the descent for target key 5 returns
position 1, the tail sentinel, whose key `2^64 - 1` exceeds the target,
although the head (key 0 ≤ 5) is the node with the greatest key ≤ 5 that
the documented postcondition requires: the loop guard
`not compare()(forward->key, key)` advances while the next node's key is
`≥` the target instead of stopping there, contradicting the function's own
comments (`iter->key <= key`). -/
theorem find_helper_returns_tail_bug :
    ValidState skiplistDefault ∧
    find_helper skiplistDefault 5 = 1 ∧
    nodeAt skiplistDefault 1 = ⟨hashMax, [], List.replicate 16 2⟩ ∧
    ¬ (nodeAt skiplistDefault (find_helper skiplistDefault 5)).key ≤ 5 ∧
    (nodeAt skiplistDefault 0).key ≤ 5 := by
  refine ⟨by decide, rfl, rfl, by decide, by decide⟩

set_option maxRecDepth 8000 in
/-- C2 (code bug): in the valid state `st5` — reachable by inserting value
5 into `create 1 ½` under the identity hasher — an interior node with key 5
exists, yet `find(5)` returns the end iterator: the descent walks past the
matching node onto the tail.  Moreover, on the empty default skiplist a
value hashing to `2^64 - 1` is "found" at the tail sentinel (position 1,
not `end()` = 2), so `find` can return a sentinel. -/
theorem find_misses_interior_node_bug :
    ValidState st5 ∧
    (insertR (fun v => v) (fun _ => 0) (create 1 (1/2), 0) 5).1 = st5 ∧
    interiorNodes st5 = [⟨5, [5], [2]⟩] ∧
    find (fun v => v) st5 5 = endIdx st5 ∧
    find (fun v => v) skiplistDefault hashMax = 1 ∧
    nodeAt skiplistDefault 1 = ⟨hashMax, [], List.replicate 16 2⟩ ∧
    endIdx skiplistDefault = 2 := by
  refine ⟨by decide, rfl, rfl, rfl, rfl, rfl, rfl⟩

/-- C4 counterexample: constructing with `max_level = 0 < 1` (and the
in-range probability ½, so only the `max_level` precondition is violated)
does not fail: the spec-side checked constructor rejects these arguments,
but the code's constructor returns a normally initialised two-sentinel
state on which later operations proceed (`size()` is 0 and `find` runs and
reports not-found); the level generator's unsigned `max_level - 1` silently
wraps to `2^64 - 1` instead of being reported. -/
theorem create_unchecked_counterexample :
    specCheckedCreate 0 (1/2) = none ∧
    create 0 (1/2) =
      ⟨0, 1/2, ⟨2 ^ 64 - 1, 1/2⟩, [⟨hashMin, [], []⟩, ⟨hashMax, [], []⟩]⟩ ∧
    size (create 0 (1/2)) = 0 ∧
    find (fun v => v) (create 0 (1/2)) 3 = endIdx (create 0 (1/2)) := by
  refine ⟨rfl, rfl, rfl, rfl⟩

/-- C4 amended: construction performs no validation of `max_level` or
`probability`: with `max_level = 0 < 1` and any probability whatever,
construction completes normally — the state holds exactly the two sentinels
(here with empty forward vectors), `size()` is 0, `empty()` is true, and
the binomial trials parameter wraps to `2^64 - 1`; no precondition
violation is reported at construction time. -/
theorem create_unchecked (prob : ℚ) :
    (create 0 prob).cont = [⟨hashMin, [], []⟩, ⟨hashMax, [], []⟩] ∧
    size (create 0 prob) = 0 ∧
    empty (create 0 prob) = true ∧
    (create 0 prob).rl.trials = 2 ^ 64 - 1 := by
  refine ⟨rfl, rfl, rfl, rfl⟩

/-- C5 counterexample: on the freshly constructed default skiplist there
are no interior nodes, yet iteration from `begin()` to `end()` visits two
nodes, the first being the head sentinel — `begin()` is `cont_.begin()`,
the head itself, not the node after it, and the tail is visited last. -/
theorem iteration_exposes_sentinels_counterexample :
    interiorNodes skiplistDefault = [] ∧
    iterNodes skiplistDefault ≠ interiorNodes skiplistDefault ∧
    (iterNodes skiplistDefault).length = 2 ∧
    (iterNodes skiplistDefault).head? =
      some ⟨hashMin, [], List.replicate 16 1⟩ := by
  refine ⟨rfl, by decide, rfl, rfl⟩

/-- C6: immediately after construction (default or with explicit `max_lv`
and `prob`), `size()` is 0 and `empty()` is true, and the sequence is
exactly a head node with the minimum representable key whose `max_lv`
forward entries all point to the tail directly after it (position 1),
followed by a tail node with the maximum representable key whose `max_lv`
forward entries all point to the end marker (position 2 = `end()`). -/
theorem construction_initial_state (max_lv : Nat) (prob : ℚ) :
    size (create max_lv prob) = 0 ∧
    empty (create max_lv prob) = true ∧
    (create max_lv prob).cont =
      [ ⟨hashMin, [], List.replicate max_lv 1⟩,
        ⟨hashMax, [], List.replicate max_lv 2⟩ ] ∧
    endIdx (create max_lv prob) = 2 ∧
    skiplistDefault = create 16 (1/2) :=
  ⟨rfl, rfl, rfl, rfl, rfl⟩

/-- C9: `skiplist::find` is `const`-qualified and only reads the state: for
every hasher, state and value, the state coming out of the call is the
state that went in — node sequence, keys, values multisets and forward
links all unchanged. -/
theorem find_no_side_effects (hash : Nat → Nat) (sl : skiplist) (v : Nat) :
    (findOp hash sl v).2 = sl ∧
    ((findOp hash sl v).2).cont.map (·.key) = sl.cont.map (·.key) ∧
    ((findOp hash sl v).2).cont.map (·.values) = sl.cont.map (·.values) ∧
    ((findOp hash sl v).2).cont.map (·.forwards) = sl.cont.map (·.forwards) :=
  ⟨rfl, rfl, rfl, rfl⟩

/-! ## Termination of the descent (C7) -/

/-- On a state whose links move strictly forward, a non-`end()` forward
read off a node before `end()` lands strictly between the current position
and `end()`. -/
lemma linksIncrease_forward {sl : skiplist} (h : LinksIncrease sl)
    {iter : Nat} (hi : iter < sl.cont.length) (focus : Nat)
    (hne : (nodeAt sl iter).forwards.getD focus (endIdx sl) ≠ endIdx sl) :
    iter < (nodeAt sl iter).forwards.getD focus (endIdx sl) ∧
      (nodeAt sl iter).forwards.getD focus (endIdx sl) < sl.cont.length := by
  by_cases hlt : focus < (nodeAt sl iter).forwards.length
  · have hmem : (nodeAt sl iter).forwards.getD focus (endIdx sl) ∈
        (nodeAt sl iter).forwards := by
      rw [List.getD_eq_getElem _ _ hlt]
      exact List.getElem_mem hlt
    have hb := h iter (List.mem_range.mpr hi) _ hmem
    exact ⟨hb.1, lt_of_le_of_ne hb.2 hne⟩
  · exact absurd (List.getD_eq_default _ _ (Nat.le_of_not_lt hlt)) hne

/-- The inner loop of the descent never leaves the node sequence. -/
lemma advanceAt_lt_length {sl : skiplist} (h : LinksIncrease sl)
    (key focus : Nat) :
    ∀ fuel iter, iter < sl.cont.length →
      advanceAt sl key focus fuel iter < sl.cont.length
  | 0, _, hi => hi
  | fuel + 1, iter, hi => by
    rw [advanceAt]
    split
    case isTrue hg =>
      exact advanceAt_lt_length h key focus fuel _
        (linksIncrease_forward h hi focus hg.1).2
    case isFalse => exact hi

/-- The inner loop stabilises: any two fuels at least `cont_.length - iter`
compute the same result, because each advance moves strictly forward. -/
lemma advanceAt_fuel_stable {sl : skiplist} (h : LinksIncrease sl)
    (key focus : Nat) :
    ∀ k f1 f2 iter, iter < sl.cont.length → sl.cont.length - iter ≤ k →
      k ≤ f1 → k ≤ f2 →
      advanceAt sl key focus f1 iter = advanceAt sl key focus f2 iter := by
  intro k
  induction k with
  | zero => intro f1 f2 iter hi hk _ _; omega
  | succ k ih =>
    intro f1 f2 iter hi hk h1 h2
    obtain ⟨a, rfl⟩ : ∃ a, f1 = a + 1 := ⟨f1 - 1, by omega⟩
    obtain ⟨b, rfl⟩ : ∃ b, f2 = b + 1 := ⟨f2 - 1, by omega⟩
    rw [advanceAt, advanceAt]
    by_cases hg : (nodeAt sl iter).forwards.getD focus (endIdx sl) ≠ endIdx sl ∧
        ¬ (nodeAt sl ((nodeAt sl iter).forwards.getD focus (endIdx sl))).key < key
    · rw [if_pos hg, if_pos hg]
      have hfwd := linksIncrease_forward h hi focus hg.1
      exact ih a b _ hfwd.2 (by omega) (by omega) (by omega)
    · rw [if_neg hg, if_neg hg]

/-- The whole level-by-level descent stabilises for any fuel of at least
`cont_.length`. -/
lemma foldl_advanceAt_stable {sl : skiplist} (h : LinksIncrease sl)
    (key F1 F2 : Nat) (hF1 : sl.cont.length ≤ F1) (hF2 : sl.cont.length ≤ F2) :
    ∀ (ls : List Nat) (iter : Nat), iter < sl.cont.length →
      ls.foldl (fun it i => advanceAt sl key (sl.max_lv - 1 - i) F1 it) iter =
      ls.foldl (fun it i => advanceAt sl key (sl.max_lv - 1 - i) F2 it) iter
  | [], _, _ => rfl
  | i :: ls, iter, hi => by
    simp only [List.foldl_cons]
    rw [advanceAt_fuel_stable h key (sl.max_lv - 1 - i) sl.cont.length F1 F2 iter
      hi (by omega) hF1 hF2]
    exact foldl_advanceAt_stable h key F1 F2 hF1 hF2 ls _
      (advanceAt_lt_length h key _ F2 iter hi)

/-- C7: on every state whose forward links each point to a node strictly
later in the sequence or to the end marker (and with the sequence nonempty
so the start node `cont_.begin()` exists), the descent's loops genuinely
terminate: increasing the fuel beyond `cont_.length` never changes the
result, so `find_helper` — and with it `find` — is a total function of the
state.  The C++ loops compute exactly this stabilised value. -/
theorem find_helper_terminates (sl : skiplist) (key F : Nat)
    (h : LinksIncrease sl) (h0 : 0 < sl.cont.length)
    (hF : sl.cont.length ≤ F) :
    find_helperFuel F sl key = find_helper sl key := by
  unfold find_helper find_helperFuel
  exact foldl_advanceAt_stable h key F sl.cont.length hF le_rfl _ _ h0

/-- Witness for C7 at a concrete input: the default skiplist with surplus
fuel 7. -/
theorem find_helper_terminates_witness :
    find_helperFuel 7 skiplistDefault 5 = find_helper skiplistDefault 5 :=
  find_helper_terminates skiplistDefault 5 7 (by decide) (by decide)
    (by decide)

/-! ## Iteration (C5) -/

lemma range_map_getD (d : InternalNode) :
    ∀ l : List InternalNode,
      (List.range l.length).map (fun i => l.getD i d) = l
  | [] => rfl
  | a :: t => by
    rw [List.length_cons, List.range_succ_eq_map, List.map_cons,
      List.map_map]
    simp only [Function.comp_def, Nat.succ_eq_add_one, List.getD_cons_succ,
      List.getD_cons_zero]
    rw [range_map_getD d t]

/-- Iterating from `begin()` to `end()` visits exactly the nodes of the
underlying sequence, in order. -/
lemma iterNodes_eq_cont (sl : skiplist) : iterNodes sl = sl.cont := by
  unfold iterNodes beginIdx endIdx nodeAt
  simp only [Nat.sub_zero, Nat.zero_add]
  exact range_map_getD default sl.cont

/-- With both sentinels present, the sequence is the head, then the
interior nodes, then the tail. -/
lemma cont_decomp (sl : skiplist) (h2 : 2 ≤ sl.cont.length) :
    sl.cont = nodeAt sl 0 ::
      (interiorNodes sl ++ [nodeAt sl (endIdx sl - 1)]) := by
  rcases hc : sl.cont with _ | ⟨a, t⟩
  · rw [hc] at h2; simp at h2
  · have ht : t ≠ [] := by
      intro h
      rw [hc, h] at h2
      simp at h2
    have hdec := List.dropLast_append_getLast ht
    unfold interiorNodes nodeAt endIdx
    rw [hc]
    simp only [List.getD_cons_zero, List.drop_one, List.tail_cons,
      List.length_cons]
    rw [Nat.add_sub_cancel]
    have htl : t.length - 1 < t.length := by
      have := List.length_pos.mpr ht; omega
    have hlen : t.length = (t.length - 1) + 1 := by omega
    rw [hlen, List.getD_cons_succ]
    have hlast : t.getD (t.length - 1) default = t.getLast ht := by
      rw [List.getD_eq_getElem _ _ htl, List.getLast_eq_getElem]
    rw [hlast, List.dropLast_append_getLast ht]

/-- C5 amended: forward iteration from `begin()` to `end()` walks the full
base-level sequence including both sentinels: on every state satisfying the
structural invariant it visits the head sentinel (minimum key) first, then
the interior nodes, then the tail sentinel (maximum key), exposing each
node's key and values in strictly ascending key order. -/
theorem iteration_walks_full_sequence (sl : skiplist) (h : ValidState sl) :
    iterNodes sl = sl.cont ∧
    iterNodes sl = nodeAt sl 0 ::
      (interiorNodes sl ++ [nodeAt sl (endIdx sl - 1)]) ∧
    List.Chain' (· < ·) ((iterNodes sl).map (·.key)) ∧
    (nodeAt sl 0).key = hashMin ∧
    (nodeAt sl (endIdx sl - 1)).key = hashMax := by
  obtain ⟨h2, hh, ht, hs, -, -⟩ := h
  refine ⟨iterNodes_eq_cont sl, ?_, ?_, hh, ht⟩
  · rw [iterNodes_eq_cont]
    exact cont_decomp sl h2
  · rw [iterNodes_eq_cont]
    exact (ascending_iff_chain' _).mp hs

/-- Witness for C5's amended theorem at the default-constructed state. -/
theorem iteration_walks_full_sequence_witness :
    iterNodes skiplistDefault = skiplistDefault.cont ∧
    iterNodes skiplistDefault = nodeAt skiplistDefault 0 ::
      (interiorNodes skiplistDefault ++
        [nodeAt skiplistDefault (endIdx skiplistDefault - 1)]) ∧
    List.Chain' (· < ·) ((iterNodes skiplistDefault).map (·.key)) ∧
    (nodeAt skiplistDefault 0).key = hashMin ∧
    (nodeAt skiplistDefault (endIdx skiplistDefault - 1)).key = hashMax :=
  iteration_walks_full_sequence skiplistDefault (by decide)

/-! ## The descent contract and insertion (C3, C10) -/

/-- On a strictly sorted key list, the prefix of keys `≤ k` ends exactly
after the position holding `k`. -/
lemma length_takeWhile_sorted :
    ∀ (l : List Nat) (i : Nat), List.Pairwise (· < ·) l →
      ∀ (hi : i < l.length) (k : Nat), l.get ⟨i, hi⟩ = k →
      (l.takeWhile (fun a => decide (a ≤ k))).length = i + 1
  | [], i, _, hi, _, _ => absurd hi (by simp)
  | x :: t, 0, hp, hi, k, hk => by
    obtain rfl : x = k := hk
    rw [List.takeWhile_cons_of_pos (by simp)]
    have htail : t.takeWhile (fun a => decide (a ≤ x)) = [] := by
      rcases t with _ | ⟨y, t'⟩
      · rfl
      · have hxy : x < y :=
          (List.pairwise_cons.mp hp).1 y (List.mem_cons_self y t')
        exact List.takeWhile_cons_of_neg
          (by simp only [decide_eq_true_eq]; omega)
    rw [htail]
    rfl
  | x :: t, j + 1, hp, hi, k, hk => by
    have hj : j < t.length := by
      simp only [List.length_cons] at hi; omega
    have hk' : t.get ⟨j, hj⟩ = k := hk
    have hxk : x < k := by
      have hx := (List.pairwise_cons.mp hp).1 (t.get ⟨j, hj⟩)
        (List.get_mem t j hj)
      rw [hk'] at hx
      exact hx
    rw [List.takeWhile_cons_of_pos (by simp only [decide_eq_true_eq]; omega),
      List.length_cons,
      length_takeWhile_sorted t j (List.pairwise_cons.mp hp).2 hj k hk']

/-- On a sorted state holding a node of key `k`, the spec's descent
contract `locate` returns that node's position. -/
lemma locate_eq_of_key_at {sl : skiplist}
    (hs : ascending (sl.cont.map (·.key)) = true)
    {i : Nat} (hi : i < sl.cont.length)
    {k : Nat} (hk : (nodeAt sl i).key = k) :
    locate sl k = i := by
  have hp : List.Pairwise (· < ·) (sl.cont.map (·.key)) :=
    List.chain'_iff_pairwise.mp ((ascending_iff_chain' _).mp hs)
  have hlen : i < (sl.cont.map (·.key)).length := by simpa using hi
  have hget : (sl.cont.map (·.key)).get ⟨i, hlen⟩ = k := by
    rw [List.get_eq_getElem, List.getElem_map]
    rw [nodeAt, List.getD_eq_getElem sl.cont default hi] at hk
    exact hk
  unfold locate
  rw [length_takeWhile_sorted _ i hp hlen k hget]
  omega

/-- Overwriting one node with a node agreeing on a projection `f` leaves
the `f`-image of the sequence unchanged. -/
lemma map_proj_set {α : Type} (f : InternalNode → α)
    (cont : List InternalNode) (j : Nat) (nd : InternalNode)
    (h : f nd = f (cont.getD j default)) :
    (cont.set j nd).map f = cont.map f := by
  apply List.ext_getElem
  · simp
  · intro n h1 h2
    simp only [List.getElem_map, List.getElem_set]
    split
    case isTrue heq =>
      subst heq
      rw [h, List.getD_eq_getElem cont default (by simpa using h2)]
    case isFalse => rfl

/-- Updating a forward entry only touches forward vectors: keys are unchanged. -/
lemma map_key_updateForward (cont : List InternalNode) (j i target : Nat) :
    (updateForward cont j i target).map (·.key) = cont.map (·.key) :=
  map_proj_set _ cont j _ rfl

/-- Any sequence of `updateForward` relinking steps leaves keys unchanged. -/
lemma map_key_foldl_updates (f : Nat → Nat) (q : Nat) :
    ∀ (ls : List Nat) (cont : List InternalNode),
      (ls.foldl (fun cs i => updateForward cs (f i) i q) cont).map (·.key) =
        cont.map (·.key)
  | [], _ => rfl
  | i :: ls, cont => by
    rw [List.foldl_cons, map_key_foldl_updates f q ls,
      map_key_updateForward]

/-- Renumbering the stored links leaves keys unchanged. -/
lemma map_key_remap (cont : List InternalNode) (g : Nat → Nat) :
    (cont.map
      (fun nd => { nd with forwards := nd.forwards.map g })).map (·.key) =
      cont.map (·.key) := by
  rw [List.map_map]
  rfl

/-- Splicing produces the old key sequence with the new key at the splice
position; every pre-existing node keeps its key. -/
lemma map_key_spliceNode (sl : skiplist) (key lvl q value : Nat) :
    (spliceNode sl key lvl q value).map (·.key) =
      (sl.cont.map (·.key)).take q ++ key :: (sl.cont.map (·.key)).drop q := by
  unfold spliceNode
  simp only [List.map_append, List.map_cons, List.map_take, List.map_drop,
    map_key_foldl_updates, map_key_remap]

/-- The collision branch of `insertR`. -/
lemma insertR_collision (hash draws : Nat → Nat) (sl : skiplist) (c v : Nat)
    (hc : (nodeAt sl (locate sl (hash v))).key = hash v) :
    insertR hash draws (sl, c) v =
      (addValueAt sl (locate sl (hash v)) v, c) := by
  show (if (nodeAt sl (locate sl (hash v))).key = hash v
        then (addValueAt sl (locate sl (hash v)) v, c)
        else (⟨sl.max_lv, sl.prob, sl.rl,
          spliceNode sl (hash v) (min (draws c + 1) sl.max_lv)
            (locate sl (hash v) + 1) v⟩, c + 1))
      = (addValueAt sl (locate sl (hash v)) v, c)
  exact if_pos hc

/-- The structural (new-node) branch of `insertR`. -/
lemma insertR_splice (hash draws : Nat → Nat) (sl : skiplist) (c v : Nat)
    (hc : ¬ (nodeAt sl (locate sl (hash v))).key = hash v) :
    insertR hash draws (sl, c) v =
      (⟨sl.max_lv, sl.prob, sl.rl,
        spliceNode sl (hash v) (min (draws c + 1) sl.max_lv)
          (locate sl (hash v) + 1) v⟩, c + 1) := by
  show (if (nodeAt sl (locate sl (hash v))).key = hash v
        then (addValueAt sl (locate sl (hash v)) v, c)
        else (⟨sl.max_lv, sl.prob, sl.rl,
          spliceNode sl (hash v) (min (draws c + 1) sl.max_lv)
            (locate sl (hash v) + 1) v⟩, c + 1))
      = (⟨sl.max_lv, sl.prob, sl.rl,
        spliceNode sl (hash v) (min (draws c + 1) sl.max_lv)
          (locate sl (hash v) + 1) v⟩, c + 1)
  exact if_neg hc

/-- The constructor's insertion loop is a left fold of `insert`. -/
lemma insertLoop_eq_foldl (hash draws : Nat → Nat) :
    ∀ (vs : List Nat) (sc : skiplist × Nat),
      insertLoop hash draws sc vs = List.foldl (insertR hash draws) sc vs
  | [], _ => rfl
  | v :: vs, sc => by
    rw [insertLoop, List.foldl_cons, insertLoop_eq_foldl hash draws vs]

/-- C3: when an interior node whose key is `hash v` already exists in a
valid state, `insert v` (modelled from the spec, the repository's `insert`
being absent from the source) adds `v` to that node's values multiset with
no structural change — same length, same keys, same forward links, every
other node untouched, and no level draw consumed; and the iterator-range
constructor (with it the initializer-list constructor) is repeated
insertion of the sequence's elements, in iteration order, starting from
the default-constructed state. -/
theorem insert_existing_key_and_bulk (hash draws : Nat → Nat)
    (sl : skiplist) (c v i : Nat) (h : ValidState sl)
    (hi : i < sl.cont.length) (hkey : (nodeAt sl i).key = hash v)
    (_hint : 0 < i ∧ i + 1 < sl.cont.length) (vs : List Nat) :
    insertR hash draws (sl, c) v = (addValueAt sl i v, c) ∧
    (addValueAt sl i v).cont.length = sl.cont.length ∧
    (addValueAt sl i v).cont.map (·.key) = sl.cont.map (·.key) ∧
    (addValueAt sl i v).cont.map (·.forwards) = sl.cont.map (·.forwards) ∧
    (nodeAt (addValueAt sl i v) i).values = v :: (nodeAt sl i).values ∧
    (∀ j, j < sl.cont.length → j ≠ i →
      nodeAt (addValueAt sl i v) j = nodeAt sl j) ∧
    fromList hash draws vs =
      (List.foldl (insertR hash draws) (skiplistDefault, 0) vs).1 := by
  obtain ⟨-, -, -, hs, -, -⟩ := h
  have hloc : locate sl (hash v) = i := locate_eq_of_key_at hs hi hkey
  refine ⟨?_, ?_, ?_, ?_, ?_, ?_, ?_⟩
  · have hb := insertR_collision hash draws sl c v (by rw [hloc]; exact hkey)
    rw [hloc] at hb
    exact hb
  · unfold addValueAt
    simp
  · exact map_proj_set _ sl.cont i _ rfl
  · exact map_proj_set _ sl.cont i _ rfl
  · unfold addValueAt nodeAt
    rw [List.getD_eq_getElem _ default (by simpa using hi),
      List.getElem_set, if_pos rfl]
  · intro j hj hne
    unfold addValueAt nodeAt
    rw [List.getD_eq_getElem _ default (by simpa using hj),
      List.getD_eq_getElem _ default hj, List.getElem_set,
      if_neg (fun hh => hne hh.symm)]
  · unfold fromList
    rw [insertLoop_eq_foldl]

/-- Witness for C3 at the concrete state `st5` (interior node with key 5),
inserting value 5 again and bulk-constructing from `[3]`. -/
theorem insert_existing_key_and_bulk_witness :
    insertR (fun v => v) (fun _ => 0) (st5, 0) 5 = (addValueAt st5 1 5, 0) ∧
    (addValueAt st5 1 5).cont.length = st5.cont.length ∧
    (addValueAt st5 1 5).cont.map (·.key) = st5.cont.map (·.key) ∧
    (addValueAt st5 1 5).cont.map (·.forwards) = st5.cont.map (·.forwards) ∧
    (nodeAt (addValueAt st5 1 5) 1).values = 5 :: (nodeAt st5 1).values ∧
    (∀ j, j < st5.cont.length → j ≠ 1 →
      nodeAt (addValueAt st5 1 5) j = nodeAt st5 j) ∧
    fromList (fun v => v) (fun _ => 0) [3] =
      (List.foldl (insertR (fun v => v) (fun _ => 0))
        (skiplistDefault, 0) [3]).1 :=
  insert_existing_key_and_bulk (fun v => v) (fun _ => 0) st5 0 5 1
    (by decide) (by decide) (by decide) (by decide) [3]

/-- C10: no operation of the structure changes the key of an existing
node: `find` leaves the state untouched, and `insert` (modelled from the
spec) either changes no key at all (collision branch: only a values
multiset grows) or splices one new node carrying the new key into the
sequence with every pre-existing node keeping its key — the key sequence
afterwards is the old key sequence with the new key inserted at the splice
position. -/
theorem keys_immutable (hash draws : Nat → Nat) (sl : skiplist) (c v : Nat) :
    (findOp hash sl v).2 = sl ∧
    ((insertR hash draws (sl, c) v).1.cont.map (·.key) =
        sl.cont.map (·.key) ∨
     ∃ q, (insertR hash draws (sl, c) v).1.cont.map (·.key) =
       (sl.cont.map (·.key)).take q ++
         hash v :: (sl.cont.map (·.key)).drop q) := by
  refine ⟨rfl, ?_⟩
  by_cases hc : (nodeAt sl (locate sl (hash v))).key = hash v
  · left
    rw [insertR_collision hash draws sl c v hc]
    exact map_proj_set _ sl.cont _ _ rfl
  · right
    refine ⟨locate sl (hash v) + 1, ?_⟩
    rw [insertR_splice hash draws sl c v hc]
    exact map_key_spliceNode sl (hash v) _ _ v

end SkiplistTR
